import Mathlib

/-!
Verification development for the echo-field repository.

The development shallowly embeds the two algorithmic cores of the app:

* the parent resolver `mapEventToPost` (src/lib/nostr.ts, latest revision),
* the hierarchy builder `buildHierarchy` and path finder `findPathToNode`
  (src/pages/Index.tsx),
* the radial layout effect and the pan/zoom handlers of
  `NostrVisualization.tsx`,
* a small explicit-heap model of `buildHierarchy` used for the
  no-input-mutation claim.

JavaScript specifics that matter are modelled explicitly: `if (x)` on a
`string | null` value is truthiness (both `null` and `""` are falsy),
`Map.set` overwrites (last write wins), `t[i]` on a short array is
`undefined` (modelled as `none`).
-/

namespace EchoField

/-- Flat note record as produced by `mapEventToPost` / consumed by
`buildHierarchy` (interface `NostrPost` without the mutable `comments`
field, which the builder initialises itself). -/
structure Post where
  id : String
  content : String
  pubkey : String
  created_at : Nat
  parent_id : Option String
deriving Repr, DecidableEq

/-- Raw nostr event: `event.id`, `event.content`, `event.pubkey`,
`event.created_at` (possibly undefined) and `event.tags`, a list of
string arrays. -/
structure NEvent where
  id : String
  content : String
  pubkey : String
  created_at : Option Nat
  tags : List (List String)
deriving Repr, DecidableEq

/-- Tree node of the built hierarchy: a note plus its ordered replies
(the `comments` field the builder fills in). -/
inductive NPost where
  | mk (id : String) (content : String) (comments : List NPost)
deriving Repr

/-- Projection of the `id` field of a tree node. -/
def NPost.id : NPost → String
  | .mk i _ _ => i

/-- Projection of the `content` field of a tree node. -/
def NPost.content : NPost → String
  | .mk _ c _ => c

/-- Projection of the `comments` field of a tree node. -/
def NPost.comments : NPost → List NPost
  | .mk _ _ cs => cs

/-! ## Parent resolver

Embedding of `mapEventToPost` from the latest revision of
`src/lib/nostr.ts`:

```js
const replyTag = event.tags.find(t => t[0] === 'e' && t[3] === 'reply');
const allETags = event.tags.filter(t => t[0] === 'e');
const lastETag = allETags.length > 0 ? allETags[allETags.length - 1] : undefined;
const parentTag = replyTag || lastETag;
...
parent_id: parentTag ? parentTag[1] : null,
```

(the file also binds an unused `eTag` constant identical to `replyTag`;
it has no effect and is not modelled). A `find`/`filter` result is an
array, hence always truthy, so `replyTag || lastETag` is `Option.or` and
`parentTag ? parentTag[1] : null` is a bind into index 1. -/

/-- Test `t[0] === 'e'` of a tag array. -/
def isETagArr (t : List String) : Bool := t.get? 0 == some "e"

/-- Test `t[0] === 'e' && t[3] === 'reply'` of a tag array. -/
def isReplyTagArr (t : List String) : Bool :=
  t.get? 0 == some "e" && t.get? 3 == some "reply"

/-- Embedding of `mapEventToPost` (parent resolver included inline, as in
the source). `event.created_at || 0` yields `0` both for undefined and
for `0`, hence `getD 0`. -/
def mapEventToPost (event : NEvent) : Post :=
  let replyTag := event.tags.find? isReplyTagArr
  let allETags := event.tags.filter isETagArr
  let lastETag := allETags.getLast?
  let parentTag := replyTag.or lastETag
  { id := event.id
    content := event.content
    pubkey := event.pubkey
    created_at := event.created_at.getD 0
    parent_id := parentTag.bind (fun t => t.get? 1) }

/-! ## Hierarchy builder

Embedding of `buildHierarchy` from `src/pages/Index.tsx`:

```js
const buildHierarchy = (posts, highlightedId) => {
  const postMap = new Map(); const rootPosts = [];
  posts.forEach((post) => { postMap.set(post.id, { ...post, comments: [] }); });
  posts.forEach((post) => {
    const postWithComments = postMap.get(post.id)!;
    if (post.parent_id) {
      const parentPost = postMap.get(post.parent_id);
      if (parentPost) { parentPost.comments.push(postWithComments); }
    } else { rootPosts.push(postWithComments); }
  });
  if (highlightedId) {
    const highlightIndex = rootPosts.findIndex((post) => post.id === highlightedId);
    if (highlightIndex > 0) {
      const [highlightedPost] = rootPosts.splice(highlightIndex, 1);
      rootPosts.unshift(highlightedPost);
    }
  }
  return rootPosts;
};
```

The builder mutates shared node objects; the returned value is fully
described by (a) which id is a root (in input order), (b) for each map
key, the ordered list of children appended under it, and (c) the node a
map key holds (copy of the last input post with that id). The embedding
returns the forest as explicit trees, unfolding (a)-(c); the unfolding
fuel `posts.length` is enough for every tree reachable from a root (a
reachable cycle would need a second parent edge into some node, which the
single `push` per input post makes impossible for distinct ids). -/

/-- Truthiness of `post.parent_id` (a `string | null`): the key used for
the parent lookup when `if (post.parent_id)` succeeds, i.e. when the
value is neither `null` nor `""`. -/
def parentKey (p : Post) : Option String :=
  match p.parent_id with
  | none => none
  | some s => if s = "" then none else some s

/-- The map entry for key `i`: `Map.set` overwrites, so it is the copy of
the last input post with id `i`. -/
def mapEntry (posts : List Post) (i : String) : Option Post :=
  (posts.filter (fun p => p.id == i)).getLast?

/-- Content stored on the map node for id `i` (`""` is never read for an
id that occurs in the input, since pass 1 created the entry). -/
def mapContent (posts : List Post) (i : String) : String :=
  ((mapEntry posts i).map Post.content).getD ""

/-- Pass-2 order of children appended under map key `i`: every input post
whose truthy `parent_id` is `i` (the lookup `postMap.get(i)` succeeds
exactly when `i` is an input id, which holds whenever this is consulted
by the unfolding). -/
def childPosts (posts : List Post) (i : String) : List Post :=
  posts.filter (fun c => parentKey c == some i)

/-- Pass-2 order of root pushes: input posts with falsy `parent_id`. -/
def rootEntries (posts : List Post) : List String :=
  (posts.filter (fun p => parentKey p == none)).map Post.id

/-- The `findIndex`/`splice`/`unshift` promotion step performed on
`rootPosts` when `highlightedId` is truthy. Generic over the element
test so the explicit-heap model can reuse it. -/
def promoteFirst {α : Type} (l : List α) (p : α → Bool) : List α :=
  match l.findIdx? p with
  | some i => if 0 < i then
      match l.get? i with
      | some a => a :: l.eraseIdx i
      | none => l
    else l
  | none => l

/-- Unfolding of the tree hanging from map key `i` (see the fuel
discussion above). -/
def buildTree (posts : List Post) : Nat → String → NPost
  | 0, i => .mk i (mapContent posts i) []
  | fuel + 1, i =>
      .mk i (mapContent posts i)
        ((childPosts posts i).map (fun c => buildTree posts fuel c.id))

/-- Embedding of `buildHierarchy posts highlightedId`: the returned
forest of trees, roots in pass-2 order with the optional promotion
applied (`if (highlightedId)` is truthiness, so `some ""` promotes
nothing). -/
def buildHierarchy (posts : List Post) (highlightedId : Option String) : List NPost :=
  let roots := rootEntries posts
  let roots' :=
    match highlightedId with
    | none => roots
    | some h => if h = "" then roots else promoteFirst roots (fun r => r == h)
  roots'.map (buildTree posts posts.length)

/-! ## Path finder

Embedding of `findPathToNode` from `src/pages/Index.tsx`:

```js
const findPathToNode = (nodes, targetId, currentPath = []) => {
  for (const node of nodes) {
    if (node.id === targetId) { return [...currentPath, node.id]; }
    if (node.comments) {
      const path = findPathToNode(node.comments, targetId, [...currentPath, node.id]);
      if (path) return path;
    }
  }
  return null;
};
``` -/

/-- Embedding of `findPathToNode`. -/
def findPathToNode (nodes : List NPost) (targetId : String)
    (currentPath : List String) : Option (List String) :=
  match nodes with
  | [] => none
  | node :: rest =>
    if node.id = targetId then some (currentPath ++ [node.id])
    else
      match findPathToNode node.comments targetId (currentPath ++ [node.id]) with
      | some path => some path
      | none => findPathToNode rest targetId currentPath
termination_by sizeOf nodes
decreasing_by
  all_goals cases node
  all_goals simp [NPost.comments]
  all_goals omega

/-- Membership of an id in a forest (specification-side decision
procedure used to state the path-finder claim). -/
def forestContains (nodes : List NPost) (t : String) : Bool :=
  match nodes with
  | [] => false
  | node :: rest =>
    node.id == t || forestContains node.comments t || forestContains rest t
termination_by sizeOf nodes
decreasing_by
  all_goals cases node
  all_goals simp [NPost.comments]
  all_goals omega

mutual

/-- Number of nodes carrying id `x` in one tree. -/
def countTree (x : String) : NPost → Nat
  | .mk i _ kids => (if i = x then 1 else 0) + countForest x kids

/-- Number of nodes carrying id `x` in a forest. -/
def countForest (x : String) : List NPost → Nat
  | [] => 0
  | t :: ts => countTree x t + countForest x ts

end

/-! ## Helper lemmas about the builder -/

theorem NPost.id_mk (i c : String) (kids : List NPost) : (NPost.mk i c kids).id = i := rfl

theorem buildTree_id (posts : List Post) (fuel : Nat) (i : String) :
    (buildTree posts fuel i).id = i := by
  cases fuel <;> rfl

theorem countForest_nil (x : String) : countForest x [] = 0 := rfl

theorem countForest_cons (x : String) (t : NPost) (ts : List NPost) :
    countForest x (t :: ts) = countTree x t + countForest x ts := rfl

theorem countForest_map (x : String) {α : Type} (f : α → NPost) (l : List α) :
    countForest x (l.map f) = (l.map (fun a => countTree x (f a))).sum := by
  induction l with
  | nil => rfl
  | cons a l ih => simp [countForest_cons, ih]

/-- If two posts of a duplicate-free input share an id, they are the same
record. -/
theorem id_inj {posts : List Post} (hnd : (posts.map Post.id).Nodup)
    {p q : Post} (hp : p ∈ posts) (hq : q ∈ posts) (h : p.id = q.id) : p = q := by
  induction posts with
  | nil => cases hp
  | cons a l ih =>
    simp only [List.map_cons, List.nodup_cons] at hnd
    rcases List.mem_cons.1 hp with rfl | hp' <;>
      rcases List.mem_cons.1 hq with rfl | hq'
    · rfl
    · exact absurd (h ▸ List.mem_map_of_mem Post.id hq') hnd.1
    · exact absurd (h ▸ List.mem_map_of_mem Post.id hp') hnd.1
    · exact ih hnd.2 hp' hq'

/-- Under distinct ids, the pass-1 filter for an input post's id is a
singleton, so its map entry is that post itself. -/
theorem filter_id_singleton {posts : List Post} (hnd : (posts.map Post.id).Nodup)
    {p : Post} (hp : p ∈ posts) :
    posts.filter (fun q => q.id == p.id) = [p] := by
  induction posts with
  | nil => cases hp
  | cons a l ih =>
    simp only [List.map_cons, List.nodup_cons] at hnd
    rcases List.mem_cons.1 hp with rfl | hp'
    · have hl : l.filter (fun q => q.id == p.id) = [] := by
        refine List.filter_eq_nil_iff.2 fun q hq hbeq => ?_
        exact hnd.1 ((beq_iff_eq.1 hbeq) ▸ List.mem_map_of_mem Post.id hq)
      simp [List.filter_cons, hl]
    · have hne : (a.id == p.id) = false := by
        refine beq_eq_false_iff_ne.2 fun hcontra => ?_
        exact hnd.1 (hcontra ▸ List.mem_map_of_mem Post.id hp')
      simp [List.filter_cons, hne, ih hnd.2 hp']

theorem mapEntry_of_mem {posts : List Post} (hnd : (posts.map Post.id).Nodup)
    {p : Post} (hp : p ∈ posts) : mapEntry posts p.id = some p := by
  simp [mapEntry, filter_id_singleton hnd hp]

theorem childPosts_mem {posts : List Post} {i : String} {c : Post} :
    c ∈ childPosts posts i ↔ c ∈ posts ∧ parentKey c = some i := by
  simp [childPosts, List.mem_filter]

theorem rootEntries_mem {posts : List Post} {x : String} :
    x ∈ rootEntries posts ↔ ∃ p ∈ posts, parentKey p = none ∧ p.id = x := by
  simp only [rootEntries, List.mem_map, List.mem_filter, beq_iff_eq]
  constructor
  · rintro ⟨p, ⟨hp, hroot⟩, rfl⟩; exact ⟨p, hp, by simpa using hroot, rfl⟩
  · rintro ⟨p, hp, hroot, rfl⟩; exact ⟨p, ⟨hp, by simpa using hroot⟩, rfl⟩

theorem rootEntries_sublist (posts : List Post) :
    (rootEntries posts).Sublist (posts.map Post.id) :=
  (List.filter_sublist posts).map Post.id

theorem rootEntries_nodup {posts : List Post} (hnd : (posts.map Post.id).Nodup) :
    (rootEntries posts).Nodup :=
  (rootEntries_sublist posts).nodup hnd

/-! ### The promotion step -/

theorem promoteFirst_found {α : Type} {l : List α} {p : α → Bool} {i : Nat}
    (hfind : l.findIdx? p = some i) (hpos : 0 < i) (hi : i < l.length) :
    promoteFirst l p = l[i] :: l.eraseIdx i := by
  simp [promoteFirst, hfind, hpos, List.getElem?_eq_getElem hi]

theorem promoteFirst_first {α : Type} {l : List α} {p : α → Bool}
    (hfind : l.findIdx? p = some 0) : promoteFirst l p = l := by
  simp [promoteFirst, hfind]

theorem promoteFirst_absent {α : Type} {l : List α} {p : α → Bool}
    (hfind : l.findIdx? p = none) : promoteFirst l p = l := by
  simp [promoteFirst, hfind]

theorem cons_eraseIdx_perm {α : Type} (l : List α) (i : Nat) (hi : i < l.length) :
    (l[i] :: l.eraseIdx i).Perm l := by
  rw [List.eraseIdx_eq_take_drop_succ]
  have hmid : (l[i] :: (List.take i l ++ List.drop (i + 1) l)).Perm
      (List.take i l ++ l[i] :: List.drop (i + 1) l) := List.perm_middle.symm
  rw [List.getElem_cons_drop l i hi, List.take_append_drop] at hmid
  exact hmid

theorem promoteFirst_perm {α : Type} (l : List α) (p : α → Bool) :
    (promoteFirst l p).Perm l := by
  rcases hfind : l.findIdx? p with _ | i
  · rw [promoteFirst_absent hfind]
  · have hi : i < l.length :=
      (List.findIdx?_eq_some_iff_findIdx_eq.1 hfind).1
    rcases Nat.eq_zero_or_pos i with rfl | hpos
    · rw [promoteFirst_first hfind]
    · rw [promoteFirst_found hfind hpos hi]
      exact cons_eraseIdx_perm l i hi

/-- Root ids of the built forest: the (possibly promoted) pass-2 root
list. -/
theorem buildHierarchy_map_id (posts : List Post) (hid : Option String) :
    (buildHierarchy posts hid).map NPost.id =
      match hid with
      | none => rootEntries posts
      | some h => if h = "" then rootEntries posts
          else promoteFirst (rootEntries posts) (fun r => r == h) := by
  have hmap : ∀ l : List String,
      l.map (fun r => (buildTree posts posts.length r).id) = l := by
    intro l
    rw [List.map_congr_left (fun r _ => buildTree_id posts posts.length r)]
    exact List.map_id l
  rcases hid with _ | h
  · simpa [buildHierarchy, List.map_map, Function.comp] using hmap _
  · by_cases hh : h = "" <;>
      simpa [buildHierarchy, hh, List.map_map, Function.comp] using hmap _

/-! ## Reachability along parent links

Proof-side notion used to characterise which map node ends up in which
tree: `chainReaches posts fuel x t` follows the (unique, for distinct
ids) parent chain upward from `x` for at most `fuel` steps and reports
whether it visits `t`. -/

/-- Does the parent chain starting at id `x` reach id `t` within `fuel`
steps? -/
def chainReaches (posts : List Post) : Nat → String → String → Bool
  | 0, x, t => x == t
  | fuel + 1, x, t =>
      x == t ||
        match (mapEntry posts x).bind parentKey with
        | some y => chainReaches posts fuel y t
        | none => false

theorem chainReaches_zero (posts : List Post) (x t : String) :
    chainReaches posts 0 x t = (x == t) := rfl

theorem chainReaches_succ (posts : List Post) (fuel : Nat) (x t : String) :
    chainReaches posts (fuel + 1) x t =
      (x == t ||
        match (mapEntry posts x).bind parentKey with
        | some y => chainReaches posts fuel y t
        | none => false) := rfl

theorem chainReaches_refl (posts : List Post) (fuel : Nat) (x : String) :
    chainReaches posts fuel x x = true := by
  cases fuel <;> simp [chainReaches_zero, chainReaches_succ]

theorem chainReaches_ne_some {posts : List Post} {x t : String} {px : Post}
    (hne : x ≠ t) (hx : mapEntry posts x = some px) {y : String}
    (hpk : parentKey px = some y) (fuel : Nat) :
    chainReaches posts (fuel + 1) x t = chainReaches posts fuel y t := by
  rw [chainReaches_succ, hx]
  simp [Option.bind, hpk, beq_eq_false_iff_ne.2 hne]

theorem chainReaches_ne_none {posts : List Post} {x t : String} {px : Post}
    (hne : x ≠ t) (hx : mapEntry posts x = some px)
    (hpk : parentKey px = none) (fuel : Nat) :
    chainReaches posts (fuel + 1) x t = false := by
  rw [chainReaches_succ, hx]
  simp [Option.bind, hpk, beq_eq_false_iff_ne.2 hne]

/-- Sorted-input hypothesis: every truthy parent reference points at an
earlier note of the list (the caller pre-sorts notes, replies after their
parents). -/
def ParentsEarlier (posts : List Post) : Prop :=
  ∀ (j : Nat) (hj : j < posts.length) (pk : String),
    parentKey posts[j] = some pk → pk ∈ (posts.take j).map Post.id

theorem idx_unique {posts : List Post} (hnd : (posts.map Post.id).Nodup)
    {j k : Nat} (hj : j < posts.length) (hk : k < posts.length)
    (h : posts[j].id = posts[k].id) : j = k := by
  have hj' : j < (posts.map Post.id).length := by simpa using hj
  have hk' : k < (posts.map Post.id).length := by simpa using hk
  have : (posts.map Post.id)[j] = (posts.map Post.id)[k] := by
    simpa using h
  exact (hnd.getElem_inj_iff.1 this)

theorem mem_ids_iff {posts : List Post} {x : String} :
    x ∈ posts.map Post.id ↔ ∃ (j : Nat) (hj : j < posts.length), posts[j].id = x := by
  constructor
  · intro hx
    rcases List.mem_map.1 hx with ⟨p, hp, rfl⟩
    rcases List.mem_iff_getElem.1 hp with ⟨j, hj, rfl⟩
    exact ⟨j, hj, rfl⟩
  · rintro ⟨j, hj, rfl⟩
    exact List.mem_map_of_mem Post.id (posts.getElem_mem hj)

/-- A truthy parent reference of `posts[j]` resolves to a strictly
earlier position. -/
theorem parent_step {posts : List Post} (hpe : ParentsEarlier posts)
    {j : Nat} (hj : j < posts.length) {y : String}
    (hy : parentKey posts[j] = some y) :
    ∃ (k : Nat) (hk : k < posts.length), k < j ∧ posts[k].id = y := by
  have hmem := hpe j hj y hy
  rw [List.map_take] at hmem
  rcases List.mem_take_iff_getElem.1 hmem with ⟨k, hkm, hky⟩
  have hk1 : k < j := lt_of_lt_of_le hkm (min_le_left _ _)
  have hk2 : k < posts.length := by
    have := lt_of_lt_of_le hkm (min_le_right _ _)
    simpa using this
  refine ⟨k, hk2, hk1, ?_⟩
  simpa using hky

/-- Anything the parent chain reaches from position `j` is `j`'s own id
or the id of a strictly earlier position. -/
theorem chain_le {posts : List Post} (hnd : (posts.map Post.id).Nodup)
    (hpe : ParentsEarlier posts) :
    ∀ (fuel : Nat) {j : Nat} (hj : j < posts.length) {t : String},
      chainReaches posts fuel posts[j].id t = true →
      t = posts[j].id ∨ ∃ (k : Nat) (hk : k < posts.length), k < j ∧ posts[k].id = t := by
  intro fuel
  induction fuel with
  | zero =>
    intro j hj t h
    rw [chainReaches_zero] at h
    exact Or.inl (beq_iff_eq.1 h).symm
  | succ fuel ih =>
    intro j hj t h
    by_cases hxt : posts[j].id = t
    · exact Or.inl hxt.symm
    · have hme := mapEntry_of_mem hnd (posts.getElem_mem hj)
      cases hpk : parentKey posts[j] with
      | none => rw [chainReaches_ne_none hxt hme hpk] at h; cases h
      | some y =>
        rw [chainReaches_ne_some hxt hme hpk] at h
        rcases parent_step hpe hj hpk with ⟨k, hk, hkj, hky⟩
        rcases ih hk (hky ▸ h) with hty | ⟨m, hm, hmk, hmt⟩
        · exact Or.inr ⟨k, hk, hkj, hty.symm⟩
        · exact Or.inr ⟨m, hm, hmk.trans hkj, hmt⟩

/-- One extra unit of fuel changes nothing once the fuel dominates the
start position (the chain strictly descends). -/
theorem chain_stab {posts : List Post} (hnd : (posts.map Post.id).Nodup)
    (hpe : ParentsEarlier posts) :
    ∀ (fuel : Nat) {j : Nat} (hj : j < posts.length), j < fuel → ∀ (t : String),
      chainReaches posts (fuel + 1) posts[j].id t = chainReaches posts fuel posts[j].id t := by
  intro fuel
  induction fuel with
  | zero => intro j hj hjf; cases hjf
  | succ fuel ih =>
    intro j hj hjf t
    by_cases hxt : posts[j].id = t
    · subst hxt; rw [chainReaches_refl, chainReaches_refl]
    · have hme := mapEntry_of_mem hnd (posts.getElem_mem hj)
      cases hpk : parentKey posts[j] with
      | none =>
        rw [chainReaches_ne_none hxt hme hpk, chainReaches_ne_none hxt hme hpk]
      | some y =>
        rw [chainReaches_ne_some hxt hme hpk, chainReaches_ne_some hxt hme hpk]
        rcases parent_step hpe hj hpk with ⟨k, hk, hkj, hky⟩
        have hkf : k < fuel := lt_of_lt_of_le hkj (Nat.lt_succ_iff.1 hjf)
        rw [← hky]
        exact ih hk hkf t

/-- Stepping from a node to its parent preserves what the full-fuel chain
reaches (other than the node itself). -/
theorem chain_shift {posts : List Post} (hnd : (posts.map Post.id).Nodup)
    (hpe : ParentsEarlier posts)
    {j k : Nat} (hj : j < posts.length) (hk : k < posts.length) (hkj : k < j)
    (hpk : parentKey posts[j] = some posts[k].id) {t : String}
    (hne : posts[j].id ≠ t) :
    chainReaches posts posts.length posts[j].id t =
      chainReaches posts posts.length posts[k].id t := by
  have hme := mapEntry_of_mem hnd (posts.getElem_mem hj)
  obtain ⟨m, hm⟩ : ∃ m, posts.length = m + 1 := ⟨posts.length - 1, by omega⟩
  have hkm : k < m := by omega
  rw [hm, chainReaches_ne_some hne hme hpk, ← chain_stab hnd hpe m hk hkm t]

/-! ### Indicator sums -/

theorem sum_indicator_count (l : List String) (x : String) :
    (l.map (fun i => if i = x then 1 else 0)).sum = l.count x := by
  induction l with
  | nil => rfl
  | cons a l ih =>
    simp only [List.map_cons, List.sum_cons, ih, List.count_cons, beq_iff_eq]
    omega

theorem sum_indicator_unique {l : List String} (hnd : l.Nodup)
    {p : String → Prop} [DecidablePred p] {r : String}
    (hr : r ∈ l) (hpr : p r) (huniq : ∀ a ∈ l, p a → a = r) :
    (l.map (fun a => if p a then 1 else 0)).sum = 1 := by
  have hcongr : ∀ a ∈ l, (if p a then (1 : Nat) else 0) = if a = r then 1 else 0 := by
    intro a ha
    by_cases hpa : p a
    · rw [if_pos hpa, if_pos (huniq a ha hpa)]
    · have hna : ¬a = r := fun hra => hpa (by rw [hra]; exact hpr)
      rw [if_neg hpa, if_neg hna]
  rw [List.map_congr_left hcongr, sum_indicator_count,
    List.count_eq_one_of_mem hnd hr]

/-- Position and order of a child inside the input list: children sit
strictly after their parent. -/
theorem child_position {posts : List Post} (hnd : (posts.map Post.id).Nodup)
    (hpe : ParentsEarlier posts) {j : Nat} (hj : j < posts.length) {c : Post}
    (hc : c ∈ childPosts posts posts[j].id) :
    ∃ (jc : Nat) (hjc : jc < posts.length), posts[jc] = c ∧ j < jc := by
  rcases childPosts_mem.1 hc with ⟨hcp, hcpk⟩
  rcases List.mem_iff_getElem.1 hcp with ⟨jc, hjc, rfl⟩
  rcases parent_step hpe hjc hcpk with ⟨m, hm, hmjc, hmid⟩
  have : m = j := idx_unique hnd hm hj hmid
  exact ⟨jc, hjc, rfl, this ▸ hmjc⟩

/-- A full-fuel chain starting at `posts[j].id` never revisits a child of
`posts[j].id` or anything placed after it. -/
theorem chain_not_to_later {posts : List Post} (hnd : (posts.map Post.id).Nodup)
    (hpe : ParentsEarlier posts) {j jc : Nat} (hj : j < posts.length)
    (hjc : jc < posts.length) (hlt : j < jc) :
    chainReaches posts posts.length posts[j].id posts[jc].id = false := by
  by_contra hcontra
  have htrue : chainReaches posts posts.length posts[j].id posts[jc].id = true := by
    revert hcontra; cases chainReaches posts posts.length posts[j].id posts[jc].id <;> simp
  rcases chain_le hnd hpe posts.length hj htrue with heq | ⟨m, hm, hmj, hmid⟩
  · exact absurd (idx_unique hnd hjc hj heq) (by omega)
  · exact absurd (idx_unique hnd hm hjc hmid) (by omega)

/-- Key counting step: among the children of map key `q`, exactly one
lies on the chain from `posts[j].id` when that chain reaches `q`, and
none does otherwise. -/
theorem chain_child_count {posts : List Post} (hnd : (posts.map Post.id).Nodup)
    (hpe : ParentsEarlier posts) :
    ∀ (b : Nat) {j : Nat} (hj : j < posts.length), j < b → ∀ (q : String),
      posts[j].id ≠ q →
      ((childPosts posts q).map (fun c =>
          if chainReaches posts posts.length posts[j].id c.id = true then 1 else 0)).sum
        = if chainReaches posts posts.length posts[j].id q = true then 1 else 0 := by
  intro b
  induction b with
  | zero => intro j hj hjb; cases hjb
  | succ b ih =>
    intro j hj hjb q hxq
    have hme := mapEntry_of_mem hnd (posts.getElem_mem hj)
    obtain ⟨m, hm⟩ : ∃ m, posts.length = m + 1 := ⟨posts.length - 1, by omega⟩
    cases hpk : parentKey posts[j] with
    | none =>
      have hq0 : chainReaches posts posts.length posts[j].id q = false := by
        rw [hm]; exact chainReaches_ne_none hxq hme hpk m
      have hc0 : ∀ c ∈ childPosts posts q,
          (if chainReaches posts posts.length posts[j].id c.id = true then (1 : Nat) else 0) = 0 := by
        intro c hc
        rcases childPosts_mem.1 hc with ⟨hcp, hcpk⟩
        have hne : posts[j].id ≠ c.id := by
          rintro hid
          have : posts[j] = c := id_inj hnd (posts.getElem_mem hj) hcp hid
          rw [← this, hpk] at hcpk; cases hcpk
        have : chainReaches posts posts.length posts[j].id c.id = false := by
          rw [hm]; exact chainReaches_ne_none hne hme hpk m
        simp [this]
      rw [hq0, List.sum_eq_zero (by simpa using hc0)]
      simp
    | some y =>
      rcases parent_step hpe hj hpk with ⟨k, hk, hkj, hky⟩
      have hpk' : parentKey posts[j] = some posts[k].id := by rw [hpk, hky]
      have hshift : ∀ t, posts[j].id ≠ t →
          chainReaches posts posts.length posts[j].id t =
            chainReaches posts posts.length posts[k].id t :=
        fun t ht => chain_shift hnd hpe hj hk hkj hpk' ht
      by_cases hyq : posts[k].id = q
      · -- the parent of `posts[j]` is `q` itself: `posts[j]` is the child on the chain
        have hself : posts[j] ∈ childPosts posts q :=
          childPosts_mem.2 ⟨posts.getElem_mem hj, hyq ▸ hpk'⟩
        have hrhs : chainReaches posts posts.length posts[j].id q = true := by
          rw [hshift q hxq, ← hyq, chainReaches_refl]
        have hcongr : ∀ c ∈ childPosts posts q,
            (if chainReaches posts posts.length posts[j].id c.id = true then (1 : Nat) else 0)
              = if c.id = posts[j].id then 1 else 0 := by
          intro c hc
          rcases childPosts_mem.1 hc with ⟨hcp, hcpk⟩
          by_cases hcid : c.id = posts[j].id
          · rw [if_pos hcid, hcid, chainReaches_refl]; simp
          · rcases List.mem_iff_getElem.1 hcp with ⟨jc, hjc, hceq⟩
            have hcpk' : parentKey posts[jc] = some q := hceq ▸ hcpk
            rcases parent_step hpe hjc hcpk' with ⟨m', hm', hm'jc, hm'id⟩
            have hm'k : m' = k := idx_unique hnd hm' hk (by rw [hm'id, hyq])
            have hkjc : k < jc := hm'k ▸ hm'jc
            have hne : posts[j].id ≠ c.id := fun h => hcid h.symm
            have : chainReaches posts posts.length posts[j].id c.id = false := by
              rw [hshift c.id hne, ← hceq]
              exact hceq ▸ chain_not_to_later hnd hpe hk hjc hkjc
            simp [this, hcid]
        rw [List.map_congr_left hcongr, hrhs, if_pos rfl]
        have hmapmap : (childPosts posts q).map (fun c => if c.id = posts[j].id then (1 : Nat) else 0)
            = ((childPosts posts q).map Post.id).map (fun i => if i = posts[j].id then 1 else 0) := by
          rw [List.map_map]; rfl
        rw [hmapmap, sum_indicator_count]
        have hsub : ((childPosts posts q).map Post.id).Nodup :=
          ((List.filter_sublist posts).map Post.id).nodup hnd
        exact List.count_eq_one_of_mem hsub (List.mem_map_of_mem Post.id hself)
      · -- the parent of `posts[j]` is elsewhere: recurse at the parent
        have hcongr : ∀ c ∈ childPosts posts q,
            (if chainReaches posts posts.length posts[j].id c.id = true then (1 : Nat) else 0)
              = if chainReaches posts posts.length posts[k].id c.id = true then 1 else 0 := by
          intro c hc
          rcases childPosts_mem.1 hc with ⟨hcp, hcpk⟩
          have hne : posts[j].id ≠ c.id := by
            rintro hid
            have hcj : posts[j] = c := id_inj hnd (posts.getElem_mem hj) hcp hid
            rw [← hcj, hpk'] at hcpk
            exact hyq (by injection hcpk)
          rw [hshift c.id hne]
        rw [List.map_congr_left hcongr,
          ih hk (by omega) q hyq, hshift q hxq]

/-- Per-tree counting: the tree unfolded from `posts[j].id` holds one
node with id `x` when the chain from `x` passes through `posts[j].id`,
and none otherwise. -/
theorem countTree_buildTree {posts : List Post} (hnd : (posts.map Post.id).Nodup)
    (hpe : ParentsEarlier posts) :
    ∀ (fuel : Nat) {j : Nat} (hj : j < posts.length), posts.length ≤ fuel + j →
      ∀ (x : String),
      countTree x (buildTree posts fuel posts[j].id) =
        if x ∈ posts.map Post.id ∧
            chainReaches posts posts.length x posts[j].id = true then 1 else 0 := by
  intro fuel
  induction fuel with
  | zero => intro j hj hle; omega
  | succ fuel ih =>
    intro j hj hle x
    show (if posts[j].id = x then 1 else 0) +
        countForest x ((childPosts posts posts[j].id).map
          (fun c => buildTree posts fuel c.id)) = _
    rw [countForest_map]
    have hterm : ∀ c ∈ childPosts posts posts[j].id,
        countTree x (buildTree posts fuel c.id)
          = if x ∈ posts.map Post.id ∧
              chainReaches posts posts.length x c.id = true then 1 else 0 := by
      intro c hc
      rcases child_position hnd hpe hj hc with ⟨jc, hjc, hceq, hjlt⟩
      rw [← hceq]
      exact ih hjc (by omega) x
    rw [List.map_congr_left hterm]
    by_cases hx : posts[j].id = x
    · have hzero : ∀ c ∈ childPosts posts posts[j].id,
          (if x ∈ posts.map Post.id ∧
              chainReaches posts posts.length x c.id = true then (1 : Nat) else 0) = 0 := by
        intro c hc
        rcases child_position hnd hpe hj hc with ⟨jc, hjc, hceq, hjlt⟩
        have hfalse : chainReaches posts posts.length x c.id = false := by
          rw [← hx, ← hceq]
          exact chain_not_to_later hnd hpe hj hjc hjlt
        simp [hfalse]
      rw [List.sum_eq_zero
          (fun v hv => by rcases List.mem_map.1 hv with ⟨c, hc, rfl⟩; exact hzero c hc),
        if_pos hx]
      have hmem : x ∈ posts.map Post.id := mem_ids_iff.2 ⟨j, hj, hx⟩
      have hch : chainReaches posts posts.length x posts[j].id = true := by
        rw [hx]; exact chainReaches_refl posts posts.length x
      rw [if_pos ⟨hmem, hch⟩]
      omega
    · rw [if_neg hx]
      by_cases hmem : x ∈ posts.map Post.id
      · rcases mem_ids_iff.1 hmem with ⟨jx, hjx, hjxid⟩
        have hcongr : ∀ c ∈ childPosts posts posts[j].id,
            (if x ∈ posts.map Post.id ∧
                chainReaches posts posts.length x c.id = true then (1 : Nat) else 0)
              = if chainReaches posts posts.length x c.id = true then 1 else 0 := by
          intro c _
          by_cases hch : chainReaches posts posts.length x c.id = true
          · rw [if_pos ⟨hmem, hch⟩, if_pos hch]
          · rw [if_neg (fun h => hch h.2), if_neg hch]
        have hrhs : (if x ∈ posts.map Post.id ∧
              chainReaches posts posts.length x posts[j].id = true then (1 : Nat) else 0)
            = if chainReaches posts posts.length x posts[j].id = true then 1 else 0 := by
          by_cases hch : chainReaches posts posts.length x posts[j].id = true
          · rw [if_pos ⟨hmem, hch⟩, if_pos hch]
          · rw [if_neg (fun h => hch h.2), if_neg hch]
        rw [List.map_congr_left hcongr, Nat.zero_add, hrhs, ← hjxid]
        exact chain_child_count hnd hpe (jx + 1) hjx (Nat.lt_succ_self jx)
          posts[j].id (by rw [hjxid]; exact fun h => hx h.symm)
      · have hzero : ∀ c ∈ childPosts posts posts[j].id,
            (if x ∈ posts.map Post.id ∧
                chainReaches posts posts.length x c.id = true then (1 : Nat) else 0) = 0 :=
          fun c _ => if_neg (fun h => hmem h.1)
        rw [List.sum_eq_zero
            (fun v hv => by rcases List.mem_map.1 hv with ⟨c, hc, rfl⟩; exact hzero c hc),
          if_neg (fun h => hmem h.1)]
        omega

/-- Every note of a sorted duplicate-free input reaches exactly one root
entry along its parent chain. -/
theorem chain_root {posts : List Post} (hnd : (posts.map Post.id).Nodup)
    (hpe : ParentsEarlier posts) :
    ∀ (b : Nat) {j : Nat} (hj : j < posts.length), j < b →
      ∃ r, r ∈ rootEntries posts ∧
        chainReaches posts posts.length posts[j].id r = true ∧
        ∀ r', r' ∈ rootEntries posts →
          chainReaches posts posts.length posts[j].id r' = true → r' = r := by
  intro b
  induction b with
  | zero => intro j hj hjb; cases hjb
  | succ b ih =>
    intro j hj hjb
    have hme := mapEntry_of_mem hnd (posts.getElem_mem hj)
    obtain ⟨m, hm⟩ : ∃ m, posts.length = m + 1 := ⟨posts.length - 1, by omega⟩
    cases hpk : parentKey posts[j] with
    | none =>
      refine ⟨posts[j].id,
        rootEntries_mem.2 ⟨posts[j], posts.getElem_mem hj, hpk, rfl⟩,
        chainReaches_refl posts posts.length posts[j].id, ?_⟩
      intro r' _ hchain
      by_cases hr : posts[j].id = r'
      · exact hr.symm
      · rw [hm, chainReaches_ne_none hr hme hpk m] at hchain
        cases hchain
    | some y =>
      rcases parent_step hpe hj hpk with ⟨k, hk, hkj, hky⟩
      have hpk' : parentKey posts[j] = some posts[k].id := by rw [hpk, hky]
      have hxnotroot : ∀ r', r' ∈ rootEntries posts → posts[j].id ≠ r' := by
        intro r' hr' hid
        rcases rootEntries_mem.1 hr' with ⟨p, hp, hproot, hpid⟩
        have hpj : posts[j] = p :=
          id_inj hnd (posts.getElem_mem hj) hp (hid.trans hpid.symm)
        rw [hpj, hproot] at hpk
        cases hpk
      rcases ih hk (by omega) with ⟨r, hrmem, hrchain, hruniq⟩
      refine ⟨r, hrmem, ?_, ?_⟩
      · rw [chain_shift hnd hpe hj hk hkj hpk' (hxnotroot r hrmem)]
        exact hrchain
      · intro r' hr' hchain
        rw [chain_shift hnd hpe hj hk hkj hpk' (hxnotroot r' hr')] at hchain
        exact hruniq r' hr' hchain

/-- Completeness of the builder on sorted duplicate-free inputs: the
returned forest holds exactly one node per input id, independently of
the promotion argument. -/
theorem countForest_buildHierarchy {posts : List Post}
    (hnd : (posts.map Post.id).Nodup) (hpe : ParentsEarlier posts)
    (hid : Option String) (x : String) :
    countForest x (buildHierarchy posts hid) =
      if x ∈ posts.map Post.id then 1 else 0 := by
  have hperm : ∀ (l : List String), l.Perm (rootEntries posts) →
      countForest x (l.map (buildTree posts posts.length)) =
        ((rootEntries posts).map
          (fun r => countTree x (buildTree posts posts.length r))).sum := by
    intro l hl
    rw [countForest_map]
    exact List.Perm.sum_eq (hl.map _)
  have hbuild : countForest x (buildHierarchy posts hid) =
      ((rootEntries posts).map
        (fun r => countTree x (buildTree posts posts.length r))).sum := by
    rcases hid with _ | h
    · exact hperm _ (List.Perm.refl _)
    · by_cases hh : h = ""
      · simp only [buildHierarchy, hh, if_pos]
        exact hperm _ (List.Perm.refl _)
      · simp only [buildHierarchy, hh, if_neg, ite_false]
        exact hperm _ (promoteFirst_perm _ _)
  rw [hbuild]
  have hterm : ∀ r ∈ rootEntries posts,
      countTree x (buildTree posts posts.length r)
        = if x ∈ posts.map Post.id ∧
            chainReaches posts posts.length x r = true then 1 else 0 := by
    intro r hr
    rcases rootEntries_mem.1 hr with ⟨p, hp, _, hpid⟩
    rcases List.mem_iff_getElem.1 hp with ⟨jr, hjr, hjreq⟩
    have : r = posts[jr].id := by rw [hjreq, hpid]
    rw [this]
    exact countTree_buildTree hnd hpe posts.length hjr (by omega) x
  rw [List.map_congr_left hterm]
  by_cases hmem : x ∈ posts.map Post.id
  · rcases mem_ids_iff.1 hmem with ⟨jx, hjx, hjxid⟩
    rcases chain_root hnd hpe (jx + 1) hjx (Nat.lt_succ_self jx)
      with ⟨r, hrmem, hrchain, hruniq⟩
    have hcongr : ∀ a ∈ rootEntries posts,
        (if x ∈ posts.map Post.id ∧
            chainReaches posts posts.length x a = true then (1 : Nat) else 0)
          = if chainReaches posts posts.length x a = true then 1 else 0 := by
      intro a _
      by_cases hch : chainReaches posts posts.length x a = true
      · rw [if_pos ⟨hmem, hch⟩, if_pos hch]
      · rw [if_neg (fun h => hch h.2), if_neg hch]
    rw [List.map_congr_left hcongr, if_pos hmem]
    exact sum_indicator_unique (rootEntries_nodup hnd) hrmem
      (show chainReaches posts posts.length x r = true from hjxid ▸ hrchain)
      (fun a ha hch => hruniq a ha (hjxid ▸ hch))
  · have hzero : ∀ a ∈ rootEntries posts,
        (if x ∈ posts.map Post.id ∧
            chainReaches posts posts.length x a = true then (1 : Nat) else 0) = 0 :=
      fun a _ => if_neg (fun h => hmem h.1)
    rw [List.sum_eq_zero
        (fun v hv => by rcases List.mem_map.1 hv with ⟨a, ha, rfl⟩; exact hzero a ha),
      if_neg hmem]

/-- Vanishing criterion: an id that is not a root entry and is only ever
appended under its own map key (or under keys outside the input) never
shows up in the built forest. -/
theorem countForest_buildHierarchy_zero {posts : List Post} {x : String}
    (hz : ∀ r, r ∈ posts.map Post.id → r ≠ x →
      ∀ c ∈ childPosts posts r, c.id ≠ x)
    (hxroot : x ∉ rootEntries posts) (hid : Option String) :
    countForest x (buildHierarchy posts hid) = 0 := by
  have htree : ∀ (fuel : Nat) (r : String), r ∈ posts.map Post.id → r ≠ x →
      countTree x (buildTree posts fuel r) = 0 := by
    intro fuel
    induction fuel with
    | zero =>
      intro r _ hrx
      show (if r = x then 1 else 0) + countForest x [] = 0
      rw [if_neg hrx, countForest_nil]
    | succ fuel ih =>
      intro r hr hrx
      show (if r = x then 1 else 0) +
          countForest x ((childPosts posts r).map
            (fun c => buildTree posts fuel c.id)) = 0
      rw [if_neg hrx, countForest_map]
      rw [List.sum_eq_zero (fun v hv => by
        rcases List.mem_map.1 hv with ⟨c, hc, rfl⟩
        have hcmem : c.id ∈ posts.map Post.id :=
          List.mem_map_of_mem Post.id (childPosts_mem.1 hc).1
        exact ih c.id hcmem (hz r hr hrx c hc))]
      omega
  have hroots : ∀ l : List String, (∀ r ∈ l, r ∈ rootEntries posts) →
      countForest x (l.map (buildTree posts posts.length)) = 0 := by
    intro l hl
    rw [countForest_map]
    refine List.sum_eq_zero (fun v hv => ?_)
    rcases List.mem_map.1 hv with ⟨r, hr, rfl⟩
    have hrr := hl r hr
    rcases rootEntries_mem.1 hrr with ⟨p, hp, _, hpid⟩
    have hrmem : r ∈ posts.map Post.id := hpid ▸ List.mem_map_of_mem Post.id hp
    exact htree posts.length r hrmem (fun hrx => hxroot (hrx ▸ hrr))
  rcases hid with _ | h
  · exact hroots _ (fun r hr => hr)
  · by_cases hh : h = ""
    · simp only [buildHierarchy, hh, if_pos]
      exact hroots _ (fun r hr => hr)
    · simp only [buildHierarchy, hh, if_neg, ite_false]
      exact hroots _ (fun r hr => (promoteFirst_perm _ _).mem_iff.1 hr)

/-! ### Path finder lemmas -/

/-- Shape of every successful search: the accumulated prefix, then a
nonempty suffix starting at a top-level tree of the searched forest and
ending at the target. -/
theorem findPathToNode_some :
    ∀ (nodes : List NPost) (targetId : String) (currentPath : List String)
      (p : List String), findPathToNode nodes targetId currentPath = some p →
      ∃ r q, p = currentPath ++ r :: q ∧ r ∈ nodes.map NPost.id ∧
        p.getLast? = some targetId := by
  intro nodes targetId currentPath
  induction nodes, targetId, currentPath using findPathToNode.induct with
  | case1 targetId currentPath =>
    intro p h
    rw [findPathToNode] at h
    cases h
  | case2 currentPath node rest =>
    intro p h
    rw [findPathToNode] at h
    have h2 : currentPath ++ [node.id] = p := by simpa using h
    refine ⟨node.id, [], h2.symm,
      List.mem_map_of_mem NPost.id (List.mem_cons_self node rest), ?_⟩
    rw [← h2, List.getLast?_concat]
  | case3 targetId currentPath node rest hne path hpath ih =>
    intro p h
    rw [findPathToNode] at h
    simp only [if_neg hne, hpath] at h
    rcases ih path hpath with ⟨r, q, hshape, _, hlast⟩
    have hp : path = p := by simpa using h
    subst hp
    refine ⟨node.id, r :: q, ?_,
      List.mem_map_of_mem NPost.id (List.mem_cons_self node rest), hlast⟩
    rw [hshape, List.append_assoc]
    rfl
  | case4 targetId currentPath node rest hne hnone ihc ih =>
    intro p h
    rw [findPathToNode] at h
    simp only [if_neg hne, hnone] at h
    rcases ih p h with ⟨r, q, hshape, hmem, hlast⟩
    refine ⟨r, q, hshape, ?_, hlast⟩
    rcases List.mem_map.1 hmem with ⟨n, hn, rfl⟩
    exact List.mem_map_of_mem NPost.id (List.mem_cons_of_mem node hn)

/-- The search succeeds exactly on ids present in the forest. -/
theorem findPathToNode_isSome :
    ∀ (nodes : List NPost) (targetId : String) (currentPath : List String),
      (findPathToNode nodes targetId currentPath).isSome
        = forestContains nodes targetId := by
  intro nodes targetId currentPath
  induction nodes, targetId, currentPath using findPathToNode.induct with
  | case1 targetId currentPath =>
    rw [findPathToNode, forestContains]; rfl
  | case2 currentPath node rest =>
    rw [findPathToNode, forestContains]
    simp
  | case3 targetId currentPath node rest hne path hpath ih =>
    rw [findPathToNode, forestContains]
    rw [hpath] at ih
    simp only [if_neg hne, hpath, Option.isSome_some, beq_iff_eq, hne]
    simp [← ih]
  | case4 targetId currentPath node rest hne hnone ihc ih =>
    rw [findPathToNode, forestContains]
    rw [hnone] at ihc
    have hcf : forestContains node.comments targetId = false := by
      simpa using ihc.symm
    simp [if_neg hne, hnone, hcf, hne, ih]

/-! ## Radial layout engine

Embedding of the layout effect of `NostrVisualization.tsx` (the
single-root variant used by the claims):

```js
if (!posts.length) return;
const centerX = dimensions.width / 2;
const centerY = dimensions.height / 2;
let rootNode: Node; let startLevelNodes: NostrPost[];
if (posts.length === 1) {
  const realRoot = posts[0];
  rootNode = { id: realRoot.id, x: centerX, y: centerY, radius: 20,
    label: realRoot.content.length > 20 ? realRoot.content.substring(0, 20) + '...' : realRoot.content,
    post: realRoot, level: 0 };
  startLevelNodes = realRoot.comments || [];
}
const newNodes: Node[] = [rootNode]; const newLinks: Link[] = [];
const totalStartNodes = startLevelNodes.length;
if (totalStartNodes === 0 && !isVirtualRoot) { setNodes(newNodes); setLinks(newLinks); return; }
const level1Radius = Math.min(dimensions.width, dimensions.height) * 0.25;
startLevelNodes.forEach((post, index) => {
  const angle = (index / totalStartNodes) * 2 * Math.PI;
  const x = centerX + level1Radius * Math.cos(angle);
  const y = centerY + level1Radius * Math.sin(angle);
  const postNode: Node = { id: post.id, x, y, radius: 12, post, label: '', level: 1, angle };
  newNodes.push(postNode); newLinks.push({ source: rootNode, target: postNode });
  if (post.comments && post.comments.length > 0) {
    const level2Radius = 70;
    post.comments.forEach((comment, cIndex) => {
      const l2X = x + level2Radius * Math.cos(angle + (cIndex - post.comments.length / 2) * 0.3);
      const l2Y = y + level2Radius * Math.sin(angle + (cIndex - post.comments.length / 2) * 0.3);
      const commentNode: Node = { id: comment.id, x: l2X, y: l2Y, radius: 8, post: comment, level: 2 };
      newNodes.push(commentNode); newLinks.push({ source: postNode, target: commentNode });
    });
  }
});
setNodes(newNodes); setLinks(newLinks);
```

With more than one top-level post the effect reads the uninitialised
`rootNode`/`startLevelNodes` bindings and throws; the embedding returns
`none` for those inputs (and for the empty list, where the effect
publishes nothing). The unused `startAngle`/`totalSpread` bindings are
not modelled. -/

/-- Geometry node published by the visualization. -/
structure VNode where
  id : String
  x : ℝ
  y : ℝ
  radius : ℝ
  label : Option String
  post : Option NPost
  level : Nat
  angle : Option ℝ

/-- Link record: the source holds the two node objects. -/
structure VLink where
  source : VNode
  target : VNode

/-- Result published by one run of the layout effect. -/
structure Layout where
  nodes : List VNode
  links : List VLink

/-- Label truncation `content.length > 20 ? content.substring(0, 20) + '...' : content`. -/
def truncate20 (s : String) : String :=
  if s.length > 20 then s.take 20 ++ "..." else s

/-- Depth-1 angle `(index / totalStartNodes) * 2 * Math.PI`. -/
noncomputable def l1Angle (i total : Nat) : ℝ :=
  ((i : ℝ) / (total : ℝ)) * 2 * Real.pi

/-- Depth-1 ring radius `Math.min(width, height) * 0.25`. -/
noncomputable def level1Radius (w h : ℝ) : ℝ := min w h * (0.25 : ℝ)

/-- The depth-0 node of the single-root branch. -/
noncomputable def rootVNode (realRoot : NPost) (w h : ℝ) : VNode :=
  { id := realRoot.id, x := w / 2, y := h / 2, radius := 20
    label := some (truncate20 realRoot.content)
    post := some realRoot, level := 0, angle := none }

/-- The depth-1 node for child `ip.2` at index `ip.1` of `total`. -/
noncomputable def l1NodeOf (w h : ℝ) (total : Nat) (ip : Nat × NPost) : VNode :=
  { id := ip.2.id
    x := w / 2 + level1Radius w h * Real.cos (l1Angle ip.1 total)
    y := h / 2 + level1Radius w h * Real.sin (l1Angle ip.1 total)
    radius := 12, label := some "", post := some ip.2, level := 1
    angle := some (l1Angle ip.1 total) }

/-- The depth-2 node for comment `jc.2` at index `jc.1` of `total2`,
fanned around its depth-1 parent at `(px, py)` and angle `angle`. -/
noncomputable def l2NodeOf (px py angle : ℝ) (total2 : Nat) (jc : Nat × NPost) : VNode :=
  { id := jc.2.id
    x := px + 70 * Real.cos (angle + ((jc.1 : ℝ) - (total2 : ℝ) / 2) * (0.3 : ℝ))
    y := py + 70 * Real.sin (angle + ((jc.1 : ℝ) - (total2 : ℝ) / 2) * (0.3 : ℝ))
    radius := 8, label := none, post := some jc.2, level := 2, angle := none }

/-- Nodes pushed for one depth-1 child: the child itself, then its fan of
depth-2 comments. -/
noncomputable def blockNodes (w h : ℝ) (total : Nat) (ip : Nat × NPost) : List VNode :=
  l1NodeOf w h total ip ::
    ip.2.comments.enum.map
      (fun jc => l2NodeOf (l1NodeOf w h total ip).x (l1NodeOf w h total ip).y
        (l1Angle ip.1 total) ip.2.comments.length jc)

/-- Links pushed for one depth-1 child: root to child, then child to each
of its depth-2 comments. -/
noncomputable def blockLinks (rootNode : VNode) (w h : ℝ) (total : Nat)
    (ip : Nat × NPost) : List VLink :=
  VLink.mk rootNode (l1NodeOf w h total ip) ::
    (ip.2.comments.enum.map
      (fun jc => l2NodeOf (l1NodeOf w h total ip).x (l1NodeOf w h total ip).y
        (l1Angle ip.1 total) ip.2.comments.length jc)).map
      (fun c => VLink.mk (l1NodeOf w h total ip) c)

/-- Embedding of the layout effect (single-root variant, see above). -/
noncomputable def nostrLayout (posts : List NPost) (w h : ℝ) : Option Layout :=
  match posts with
  | [realRoot] =>
    let rootNode := rootVNode realRoot w h
    let start := realRoot.comments
    if start.length = 0 then some { nodes := [rootNode], links := [] }
    else some
      { nodes := rootNode :: (start.enum.map (blockNodes w h start.length)).flatten
        links := (start.enum.map (blockLinks rootNode w h start.length)).flatten }
  | _ => none

/-! ## Viewport transform

Embedding of the pan/zoom interaction handlers of the pan-enabled
`NostrVisualization` revision:

```js
const handleWheel = (e) => {
  const scaleBy = 1.1;
  const oldScale = transform.scale;
  const newScale = e.deltaY < 0 ? oldScale * scaleBy : oldScale / scaleBy;
  if (newScale < 0.1 || newScale > 5) return;
  setTransform(prev => ({ ...prev, scale: newScale }));
};
// zoom buttons:
onClick: setTransform(prev => ({ ...prev, scale: prev.scale * 1.2 }))
onClick: setTransform(prev => ({ ...prev, scale: prev.scale / 1.2 }))
onClick: setTransform({ x: 0, y: 0, scale: 1 })
// dragging (handleMouseMove):
setTransform(prev => ({ ...prev, x: e.clientX - dragStart.x, y: e.clientY - dragStart.y }));
```

The float constants 1.1, 0.1 and 1.2 are modelled as the exact rationals
11/10, 1/10 and 6/5. -/

/-- Pan/zoom state `{ x, y, scale }`, initially `{ 0, 0, 1 }`. -/
structure VTransform where
  x : ℚ
  y : ℚ
  scale : ℚ
deriving Repr, DecidableEq

/-- One discrete interaction event dispatched by the host UI loop. -/
inductive VizEvent where
  | wheel (deltaY : ℚ)
  | zoomInBtn
  | zoomOutBtn
  | reset
  | panTo (x y : ℚ)
deriving Repr, DecidableEq

/-- Transition of the transform state under one event. -/
def stepTransform (t : VTransform) (e : VizEvent) : VTransform :=
  match e with
  | .wheel deltaY =>
    let newScale := if deltaY < 0 then t.scale * (11 / 10) else t.scale / (11 / 10)
    if newScale < 1 / 10 ∨ newScale > 5 then t
    else { t with scale := newScale }
  | .zoomInBtn => { t with scale := t.scale * (6 / 5) }
  | .zoomOutBtn => { t with scale := t.scale / (6 / 5) }
  | .reset => { x := 0, y := 0, scale := 1 }
  | .panTo px py => { t with x := px, y := py }

/-- The identity transform the component state starts from. -/
def initTransform : VTransform := { x := 0, y := 0, scale := 1 }

/-- State after a sequence of interaction events from the identity. -/
def runEvents (es : List VizEvent) : VTransform :=
  es.foldl stepTransform initTransform

/-! ## Explicit-heap model of the hierarchy builder

Used for the no-input-mutation claim: JavaScript object aliasing is made
explicit. A heap is a list of records addressed by position; `Map.set`
and `push` become heap updates. `buildHierarchy` allocates one copy per
input record in pass 1 (`{ ...post, comments: [] }`, at a fresh address)
and in pass 2 mutates only those copies. -/

/-- Heap record: scalar fields of a note plus `comments` as a list of
heap addresses. -/
structure PObj where
  id : String
  content : String
  parent_id : Option String
  comments : List Nat
deriving Repr, DecidableEq

/-- Truthiness of a heap record's `parent_id` (same rule as `parentKey`). -/
def pobjParentKey (o : PObj) : Option String :=
  match o.parent_id with
  | none => none
  | some s => if s = "" then none else some s

/-- The spread copy `{ ...post, comments: [] }` allocated by pass 1. -/
def copyOf (post : PObj) : PObj :=
  { id := post.id, content := post.content
    parent_id := post.parent_id, comments := [] }

/-- Pass 1: for each input address allocate `{ ...post, comments: [] }`
at the end of the heap and point the map at the new address. -/
def pass1 : List Nat → List PObj → (String → Option Nat) →
    List PObj × (String → Option Nat)
  | [], heap, m => (heap, m)
  | a :: rest, heap, m =>
    match heap[a]? with
    | some post =>
      pass1 rest (heap ++ [copyOf post])
        (fun k => if k = post.id then some heap.length else m k)
    | none => pass1 rest heap m

/-- Pass 2: for each input address read the live record, look up its map
copy, and either append the copy under its parent's map copy or push it
onto the root list. -/
def pass2 : List Nat → List PObj → (String → Option Nat) → List Nat →
    List PObj × List Nat
  | [], heap, _, roots => (heap, roots)
  | a :: rest, heap, m, roots =>
    match heap[a]? with
    | none => pass2 rest heap m roots
    | some post =>
      match m post.id with
      | none => pass2 rest heap m roots
      | some pw =>
        match pobjParentKey post with
        | some pk =>
          match m pk with
          | some pa =>
            match heap[pa]? with
            | some pobj =>
              pass2 rest
                (heap.set pa { pobj with comments := pobj.comments ++ [pw] })
                m roots
            | none => pass2 rest heap m roots
          | none => pass2 rest heap m roots
        | none => pass2 rest heap m (roots ++ [pw])

/-- Heap-level `buildHierarchy`: returns the final heap and the (possibly
promoted) root address list. -/
def buildHierarchyHeap (heap0 : List PObj) (input : List Nat)
    (highlightedId : Option String) : List PObj × List Nat :=
  let s1 := pass1 input heap0 (fun _ => none)
  let s2 := pass2 input s1.1 s1.2 []
  let roots :=
    match highlightedId with
    | none => s2.2
    | some hid =>
      if hid = "" then s2.2
      else promoteFirst s2.2
        (fun r => match s2.1[r]? with
          | some o => o.id == hid
          | none => false)
  (s2.1, roots)

/-! ### Layout lemmas -/

theorem flatten_map_singleton {α β : Type} (l : List α) (f : α → β) :
    (l.map (fun a => [f a])).flatten = l.map f := by
  induction l with
  | nil => rfl
  | cons a l ih => simp [ih]

theorem nostrLayout_single_isSome (root : NPost) (w h : ℝ) :
    (nostrLayout [root] w h).isSome := by
  rw [nostrLayout]
  by_cases hlen : root.comments.length = 0 <;> simp [hlen]

theorem nostrLayout_head {root : NPost} {w h : ℝ} {L : Layout}
    (hL : nostrLayout [root] w h = some L) :
    L.nodes.head? = some (rootVNode root w h) := by
  rw [nostrLayout] at hL
  by_cases hlen : root.comments.length = 0
  · rw [if_pos hlen] at hL
    cases hL; rfl
  · rw [if_neg hlen] at hL
    cases hL; rfl

/-- The depth-1 nodes of a single-root layout, in order: one per child of
the root, with the ring geometry. -/
theorem nostrLayout_filter_level1 {root : NPost} {w h : ℝ} {L : Layout}
    (hL : nostrLayout [root] w h = some L) :
    L.nodes.filter (fun v => v.level == 1)
      = root.comments.enum.map (l1NodeOf w h root.comments.length) := by
  rw [nostrLayout] at hL
  by_cases hlen : root.comments.length = 0
  · rw [if_pos hlen] at hL
    cases hL
    have : root.comments = [] := List.length_eq_zero.1 hlen
    simp [rootVNode, this]
  · rw [if_neg hlen] at hL
    cases hL
    simp only [List.filter_cons]
    have hroot : (((rootVNode root w h).level == 1) = false) := by
      simp [rootVNode]
    rw [hroot]
    simp only [List.filter_flatten, List.map_map]
    have hblock : ∀ ip ∈ root.comments.enum,
        ((fun l => List.filter (fun v => v.level == 1) l) ∘
          blockNodes w h root.comments.length) ip
          = [l1NodeOf w h root.comments.length ip] := by
      intro ip _
      simp only [Function.comp, blockNodes, List.filter_cons]
      have h1 : ((l1NodeOf w h root.comments.length ip).level == 1) = true := by
        simp [l1NodeOf]
      rw [h1]
      have h2 : ∀ v ∈ ip.2.comments.enum.map
          (fun jc => l2NodeOf (l1NodeOf w h root.comments.length ip).x
            (l1NodeOf w h root.comments.length ip).y
            (l1Angle ip.1 root.comments.length) ip.2.comments.length jc),
          ¬((fun v => v.level == 1) v = true) := by
        intro v hv
        rcases List.mem_map.1 hv with ⟨jc, _, rfl⟩
        simp [l2NodeOf]
      rw [List.filter_eq_nil_iff.2 h2]
      simp
    rw [List.map_congr_left hblock, flatten_map_singleton]
    simp

/-! ### Viewport transform lemmas -/

theorem scale_bounds_foldl :
    ∀ (es : List VizEvent) (t : VTransform),
      (∀ e ∈ es, e ≠ VizEvent.zoomInBtn ∧ e ≠ VizEvent.zoomOutBtn) →
      1 / 10 ≤ t.scale → t.scale ≤ 5 →
      1 / 10 ≤ (es.foldl stepTransform t).scale ∧
        (es.foldl stepTransform t).scale ≤ 5 := by
  intro es
  induction es with
  | nil => intro t _ h1 h2; exact ⟨h1, h2⟩
  | cons e es ih =>
    intro t hes h1 h2
    have he := hes e (List.mem_cons_self e es)
    have hes' : ∀ e' ∈ es, e' ≠ VizEvent.zoomInBtn ∧ e' ≠ VizEvent.zoomOutBtn :=
      fun e' he' => hes e' (List.mem_cons_of_mem e he')
    rw [List.foldl_cons]
    cases e with
    | wheel deltaY =>
      refine ih _ hes' ?_ ?_ <;> rw [stepTransform] <;>
        by_cases hcond : (if deltaY < 0 then t.scale * (11 / 10)
            else t.scale / (11 / 10)) < 1 / 10 ∨
            (if deltaY < 0 then t.scale * (11 / 10) else t.scale / (11 / 10)) > 5
      · rw [if_pos hcond]; exact h1
      · rw [if_neg hcond]
        push_neg at hcond
        exact hcond.1
      · rw [if_pos hcond]; exact h2
      · rw [if_neg hcond]
        push_neg at hcond
        exact hcond.2
    | zoomInBtn => exact absurd rfl he.1
    | zoomOutBtn => exact absurd rfl he.2
    | reset => exact ih _ hes' (by norm_num [stepTransform]) (by norm_num [stepTransform])
    | panTo px py => exact ih _ hes' h1 h2

/-! ### Heap model lemmas -/

theorem take_set_of_le {α : Type} (l : List α) (i : Nat) (a : α) (n : Nat)
    (h : n ≤ i) : (l.set i a).take n = l.take n := by
  apply List.ext_getElem?
  intro j
  rw [List.getElem?_take, List.getElem?_take]
  by_cases hj : j < n
  · rw [if_pos hj, if_pos hj, List.getElem?_set_ne (by omega)]
  · rw [if_neg hj, if_neg hj]

theorem pass1_invariant (n : Nat) :
    ∀ (input : List Nat) (heap : List PObj) (m : String → Option Nat),
      n ≤ heap.length → (∀ k v, m k = some v → n ≤ v ∧ v < heap.length) →
      n ≤ (pass1 input heap m).1.length ∧
      (pass1 input heap m).1.take n = heap.take n ∧
      (∀ k v, (pass1 input heap m).2 k = some v →
        n ≤ v ∧ v < (pass1 input heap m).1.length) := by
  intro input
  induction input with
  | nil => intro heap m hlen hm; exact ⟨hlen, rfl, hm⟩
  | cons a rest ih =>
    intro heap m hlen hm
    rw [pass1]
    cases hread : heap[a]? with
    | none => exact ih heap m hlen hm
    | some post =>
      have hlen' : n ≤ (heap ++ [copyOf post]).length := by
        rw [List.length_append]; omega
      have hm' : ∀ k v,
          (fun k => if k = post.id then some heap.length else m k) k = some v →
          n ≤ v ∧ v < (heap ++ [copyOf post]).length := by
        intro k v hkv
        dsimp only at hkv
        simp only [List.length_append, List.length_singleton]
        by_cases hk : k = post.id
        · rw [if_pos hk, Option.some_inj] at hkv
          omega
        · rw [if_neg hk] at hkv
          have := hm k v hkv
          omega
      rcases ih _ _ hlen' hm' with ⟨h1, h2, h3⟩
      refine ⟨h1, ?_, h3⟩
      rw [h2, List.take_append_of_le_length hlen]

theorem pass2_invariant (n : Nat) :
    ∀ (input : List Nat) (heap : List PObj) (m : String → Option Nat)
      (roots : List Nat),
      n ≤ heap.length → (∀ k v, m k = some v → n ≤ v ∧ v < heap.length) →
      (∀ r ∈ roots, n ≤ r) →
      (pass2 input heap m roots).1.take n = heap.take n ∧
      (∀ r ∈ (pass2 input heap m roots).2, n ≤ r) := by
  intro input heap m roots
  induction input, heap, m, roots using pass2.induct with
  | case1 heap m roots =>
    intro _ _ hroots
    rw [pass2]
    exact ⟨rfl, hroots⟩
  | case2 a rest heap m roots hread ih =>
    intro hlen hm hroots
    simp only [pass2, hread]
    exact ih hlen hm hroots
  | case3 a rest heap m roots post hread hpw ih =>
    intro hlen hm hroots
    simp only [pass2, hread, hpw]
    exact ih hlen hm hroots
  | case4 a rest heap m roots post hread pw hpw y hpk i hpa pobj hpobj ih =>
    intro hlen hm hroots
    simp only [pass2, hread, hpw, hpk, hpa, hpobj]
    have hni : n ≤ i := (hm y i hpa).1
    have hres := ih (by rw [List.length_set]; exact hlen)
      (fun k v hkv => by rw [List.length_set]; exact hm k v hkv) hroots
    refine ⟨?_, hres.2⟩
    rw [hres.1, take_set_of_le heap i _ n hni]
  | case5 a rest heap m roots post hread pw hpw y hpk i hpa hpobj ih =>
    intro hlen hm hroots
    simp only [pass2, hread, hpw, hpk, hpa, hpobj]
    exact ih hlen hm hroots
  | case6 a rest heap m roots post hread pw hpw y hpk hpa ih =>
    intro hlen hm hroots
    simp only [pass2, hread, hpw, hpk, hpa]
    exact ih hlen hm hroots
  | case7 a rest heap m roots post hread pw hpw hpk ih =>
    intro hlen hm hroots
    simp only [pass2, hread, hpw, hpk]
    refine ih hlen hm ?_
    intro r hr
    rcases List.mem_append.1 hr with hr | hr
    · exact hroots r hr
    · rcases List.mem_singleton.1 hr with rfl
      exact (hm post.id r hpw).1

/-- The heap-level builder never touches the records the input addresses
point at, and every returned root address is a fresh pass-1 copy. -/
theorem buildHierarchyHeap_frame (heap0 : List PObj) (input : List Nat)
    (hid : Option String) :
    (∀ a, a < heap0.length →
      (buildHierarchyHeap heap0 input hid).1[a]? = heap0[a]?) ∧
    (∀ r ∈ (buildHierarchyHeap heap0 input hid).2, heap0.length ≤ r) := by
  rcases pass1_invariant heap0.length input heap0 (fun _ => none) le_rfl
    (fun k v h => by cases h) with ⟨hp1len, hp1take, hp1m⟩
  rcases pass2_invariant heap0.length input (pass1 input heap0 fun _ => none).1
      (pass1 input heap0 fun _ => none).2 [] hp1len hp1m (fun r hr => by cases hr)
    with ⟨hp2take, hp2roots⟩
  have htake : (pass2 input (pass1 input heap0 fun _ => none).1
      (pass1 input heap0 fun _ => none).2 []).1.take heap0.length = heap0 := by
    rw [hp2take, hp1take, List.take_length]
  constructor
  · intro a ha
    have h1 : (buildHierarchyHeap heap0 input hid).1.take heap0.length = heap0 := htake
    have := congrArg (fun l => l[a]?) h1
    simpa [List.getElem?_take, ha] using this
  · intro r hr
    have hmem : r ∈ (pass2 input (pass1 input heap0 fun _ => none).1
        (pass1 input heap0 fun _ => none).2 []).2 := by
      rcases hid with _ | h
      · exact hr
      · by_cases hh : h = ""
        · simpa [buildHierarchyHeap, hh] using hr
        · have hr' := hr
          simp only [buildHierarchyHeap, hh, if_neg, ite_false] at hr'
          exact (promoteFirst_perm _ _).mem_iff.1 hr'
    exact hp2roots r hmem

/-- Predicate fact extracted from a successful `findIndex`. -/
theorem findIdx?_some_pred {α : Type} {l : List α} {p : α → Bool} {i : Nat}
    (hf : l.findIdx? p = some i) : ∃ (hi : i < l.length), p l[i] = true := by
  have h2 := List.findIdx?_eq_some_iff_findIdx_eq.1 hf
  refine ⟨h2.1, ?_⟩
  have h3 : List.findIdx p l < l.length := by rw [h2.2]; exact h2.1
  have h4 := @List.findIdx_getElem _ p l h3
  simp only [h2.2] at h4
  exact h4

/-! ## Concrete fixtures used by the witnesses and counterexamples -/

/-- Fixture: a root note. -/
def postA : Post := { id := "A", content := "hello", pubkey := "pk", created_at := 1, parent_id := none }

/-- Fixture: a reply to `postA`. -/
def postB : Post := { id := "B", content := "re A", pubkey := "pk", created_at := 2, parent_id := some "A" }

/-- Fixture: a reply to `postB`. -/
def postC : Post := { id := "C", content := "re B", pubkey := "pk", created_at := 3, parent_id := some "B" }

/-- Fixture: a second root note. -/
def postE : Post := { id := "E", content := "root 2", pubkey := "pk", created_at := 4, parent_id := none }

/-- Fixture: an orphan note whose parent `"Z"` is not in the input set. -/
def postD : Post := { id := "D", content := "orphan", pubkey := "pk", created_at := 5, parent_id := some "Z" }

/-- Fixture: a self-referencing note. -/
def postSelf : Post := { id := "S", content := "self", pubkey := "pk", created_at := 6, parent_id := some "S" }

/-- Fixture: a root note whose id is the empty string. -/
def postEmptyId : Post := { id := "", content := "empty id", pubkey := "pk", created_at := 7, parent_id := none }

/-- Fixture: an event whose only reference tag targets the event itself. -/
def evSelf : NEvent := { id := "S", content := "self", pubkey := "pk", created_at := none, tags := [["e", "S"]] }

/-- Fixture: an event with a reply-marked tag between two unmarked ones. -/
def evReply : NEvent :=
  { id := "R", content := "", pubkey := "pk", created_at := some 7
    tags := [["e", "root1"], ["e", "p", "", "reply"], ["e", "last"]] }

/-- Fixture: an event with only unmarked reference tags. -/
def evLegacy : NEvent :=
  { id := "L", content := "", pubkey := "pk", created_at := some 8
    tags := [["p", "x"], ["e", "root1"], ["e", "last"]] }

/-- Fixture: an event with no reference tag of kind `"e"` at all. -/
def evNoE : NEvent :=
  { id := "N", content := "", pubkey := "pk", created_at := some 9, tags := [["p", "x"]] }

/-! ## Claims -/

/-- C1 (counterexample): on the input `[D → Z]` with `Z` absent, the note
`D` appears nowhere in the built forest — it is dropped, not kept as a
root — so the forest does not contain one node per input id. -/
theorem c1_counterexample :
    countForest "D" (buildHierarchy [postD] none) = 0 ∧
    buildHierarchy [postD] none = [] := ⟨rfl, rfl⟩

/-- C1 (amended): for input lists with pairwise distinct ids, (a) when
every truthy parent reference points at an earlier note of the list, the
forest returned by `buildHierarchy` contains exactly one tree node per
input note id, for any promotion argument; and (b) a note whose resolved
parent id is truthy but not among the input ids appears zero times in
the forest — it is dropped, not placed as a root. -/
theorem c1_completeness (posts : List Post) (hid : Option String)
    (hnd : (posts.map Post.id).Nodup) :
    (ParentsEarlier posts →
      ∀ x, countForest x (buildHierarchy posts hid) =
        if x ∈ posts.map Post.id then 1 else 0) ∧
    (∀ p q, p ∈ posts → parentKey p = some q → q ∉ posts.map Post.id →
      countForest p.id (buildHierarchy posts hid) = 0) := by
  constructor
  · intro hpe x
    exact countForest_buildHierarchy hnd hpe hid x
  · intro p q hp hq hnq
    apply countForest_buildHierarchy_zero
    · intro r hr hrx c hc hcx
      have hcp : c = p := id_inj hnd (childPosts_mem.1 hc).1 hp hcx
      have : parentKey c = some r := (childPosts_mem.1 hc).2
      rw [hcp, hq] at this
      exact hnq ((Option.some_inj.1 this) ▸ hr)
    · intro hmem
      rcases rootEntries_mem.1 hmem with ⟨p', hp', hroot', hid'⟩
      have : p' = p := id_inj hnd hp' hp hid'
      rw [this, hq] at hroot'
      cases hroot'

/-- C1 (witness). -/
theorem c1_witness :
    countForest "B" (buildHierarchy [postA, postB, postC, postE] (some "E")) = 1 ∧
    countForest "Z" (buildHierarchy [postA, postB, postC, postE] (some "E")) = 0 ∧
    countForest "D" (buildHierarchy [postD] none) = 0 := by
  have hpe : ParentsEarlier [postA, postB, postC, postE] := by
    intro j hj pk hpk
    have hj4 : j < 4 := by simpa using hj
    interval_cases j <;>
      simp_all [parentKey, postA, postB, postC, postE]
  have h := c1_completeness [postA, postB, postC, postE] (some "E") (by decide)
  have h2 := c1_completeness [postD] none (by decide)
  refine ⟨(h.1 hpe "B").trans (by decide), (h.1 hpe "Z").trans (by decide), ?_⟩
  exact h2.2 postD "Z" (by decide) (by decide) (by decide)

/-- C2: parent resolution in `mapEventToPost` returns the target id of
the first reference tag of kind `"e"` carrying the relationship marker
`"reply"` when one exists; otherwise the target id of the last `"e"` tag
in the tag list; and when no `"e"` tag exists at all it returns `null`,
which classifies the note as a root of the built hierarchy. -/
theorem c2_parent_resolution (event : NEvent) :
    (∀ t, event.tags.find? isReplyTagArr = some t →
      (mapEventToPost event).parent_id = t.get? 1) ∧
    (event.tags.find? isReplyTagArr = none →
      ∀ t, (event.tags.filter isETagArr).getLast? = some t →
        (mapEventToPost event).parent_id = t.get? 1) ∧
    (event.tags.filter isETagArr = [] →
      (mapEventToPost event).parent_id = none ∧
      ∀ posts, mapEventToPost event ∈ posts →
        (mapEventToPost event).id ∈ rootEntries posts) := by
  refine ⟨?_, ?_, ?_⟩
  · intro t ht
    simp [mapEventToPost, ht, Option.or]
  · intro hnone t hlast
    simp [mapEventToPost, hnone, hlast, Option.or]
  · intro hfilter
    have hfind : event.tags.find? isReplyTagArr = none := by
      cases hf : event.tags.find? isReplyTagArr with
      | none => rfl
      | some t =>
        have hmem : t ∈ event.tags := List.mem_of_find?_eq_some hf
        have hpred : isReplyTagArr t = true := List.find?_some hf
        have hEt : isETagArr t = true := by
          rw [isReplyTagArr, Bool.and_eq_true] at hpred
          exact hpred.1
        have : t ∈ event.tags.filter isETagArr := List.mem_filter.2 ⟨hmem, hEt⟩
        rw [hfilter] at this
        cases this
    have hpid : (mapEventToPost event).parent_id = none := by
      simp [mapEventToPost, hfind, hfilter, Option.or]
    refine ⟨hpid, ?_⟩
    intro posts hmem
    refine rootEntries_mem.2 ⟨mapEventToPost event, hmem, ?_, rfl⟩
    rw [parentKey, hpid]

/-- C2 (witness). -/
theorem c2_witness :
    (mapEventToPost evReply).parent_id = some "p" ∧
    (mapEventToPost evLegacy).parent_id = some "last" ∧
    (mapEventToPost evNoE).parent_id = none ∧
    (mapEventToPost evNoE).id ∈ rootEntries [mapEventToPost evNoE] := by
  have hr := (c2_parent_resolution evReply).1 ["e", "p", "", "reply"] (by decide)
  have hl := (c2_parent_resolution evLegacy).2.1 (by decide) ["e", "last"] (by decide)
  have hn := (c2_parent_resolution evNoE).2.2 (by decide)
  exact ⟨hr.trans (by decide), hl.trans (by decide), hn.1,
    hn.2 [mapEventToPost evNoE] (List.mem_singleton.2 rfl)⟩

/-- C3 (counterexample): the resolver does not reject a self-referencing
tag: for an event whose only reference tag targets itself the resolved
parent is the note's own id, not `null`, and the built forest does not
place the note as a root — the forest is empty. -/
theorem c3_counterexample :
    (mapEventToPost evSelf).parent_id = some "S" ∧
    buildHierarchy [postSelf] none = [] := ⟨rfl, rfl⟩

/-- C3 (amended): a self-referencing reference tag is not filtered: a
note whose only reference tag targets itself resolves to a parent equal
to its own id, and the hierarchy builder then appends the note to its own
map entry, so the note is neither a root entry nor present anywhere in
the returned forest. -/
theorem c3_self_reference (event : NEvent) (posts : List Post)
    (hnd : (posts.map Post.id).Nodup) :
    (∀ t, event.tags = [t] → isETagArr t = true → t.get? 1 = some event.id →
      (mapEventToPost event).parent_id = some event.id) ∧
    (∀ p, p ∈ posts → p.parent_id = some p.id → p.id ≠ "" →
      p.id ∉ rootEntries posts ∧
      ∀ hid, countForest p.id (buildHierarchy posts hid) = 0) := by
  constructor
  · intro t htags hE hget
    rw [List.get?_eq_getElem?] at hget
    cases hrt : isReplyTagArr t with
    | true => simp [mapEventToPost, htags, List.find?, hrt, Option.or, hget]
    | false =>
      simp [mapEventToPost, htags, List.find?, List.filter, hrt, hE, Option.or, hget]
  · intro p hp hpid hne
    have hpk : parentKey p = some p.id := by
      rw [parentKey, hpid]
      simp [hne]
    have hroot : p.id ∉ rootEntries posts := by
      intro hmem
      rcases rootEntries_mem.1 hmem with ⟨p', hp', hroot', hid'⟩
      have : p' = p := id_inj hnd hp' hp hid'
      rw [this, hpk] at hroot'
      cases hroot'
    refine ⟨hroot, fun hid => ?_⟩
    apply countForest_buildHierarchy_zero
    · intro r hr hrx c hc hcx
      have hcp : c = p := id_inj hnd (childPosts_mem.1 hc).1 hp hcx
      have hckey : parentKey c = some r := (childPosts_mem.1 hc).2
      rw [hcp, hpk] at hckey
      exact hrx (Option.some_inj.1 hckey).symm
    · exact hroot

/-- C3 (witness). -/
theorem c3_witness :
    (mapEventToPost evSelf).parent_id = some "S" ∧
    "S" ∉ rootEntries [postSelf] ∧
    countForest "S" (buildHierarchy [postSelf] none) = 0 := by
  have h := c3_self_reference evSelf [postSelf] (by decide)
  have h2 := h.2 postSelf (List.mem_singleton.2 rfl) (by decide) (by decide)
  exact ⟨h.1 ["e", "S"] rfl (by decide) (by decide), h2.1, h2.2 none⟩

/-- Fixture: a root note with two replies, for the layout example. -/
def rootAB : NPost := .mk "A" "hello" [.mk "B" "" [], .mk "C" "" []]

/-- Fixture: a root note with one reply, for the degenerate viewport. -/
def rootA1 : NPost := .mk "A" "x" [.mk "B" "" []]

/-- C4: for a single-root tree in a `w`-by-`h` viewport, the layout
places the root at `(w/2, h/2)` and the depth-1 node for the i-th of the
root's N children at angle `(i/N)·2π` on a circle of radius
`min(w,h)·0.25` centred on the root. -/
theorem c4_radial_positions (root : NPost) (w h : ℝ) (L : Layout)
    (hL : nostrLayout [root] w h = some L) :
    L.nodes.head? = some (rootVNode root w h) ∧
    (rootVNode root w h).x = w / 2 ∧ (rootVNode root w h).y = h / 2 ∧
    ∀ (i : Nat) (c : NPost), root.comments[i]? = some c →
      ∃ v, (L.nodes.filter (fun n => n.level == 1))[i]? = some v ∧
        v.id = c.id ∧
        v.x = w / 2 + min w h * (0.25 : ℝ) *
          Real.cos (((i : ℝ) / (root.comments.length : ℝ)) * 2 * Real.pi) ∧
        v.y = h / 2 + min w h * (0.25 : ℝ) *
          Real.sin (((i : ℝ) / (root.comments.length : ℝ)) * 2 * Real.pi) := by
  refine ⟨nostrLayout_head hL, rfl, rfl, ?_⟩
  intro i c hc
  rw [nostrLayout_filter_level1 hL, List.getElem?_map, List.getElem?_enum, hc]
  exact ⟨l1NodeOf w h root.comments.length (i, c), rfl, rfl, rfl, rfl⟩

/-- C4 (witness): the 800-by-250 example of the specification, with the
trigonometry evaluated: root at `(400, 125)`, first child at angle `0`
and second child at angle `π` on the circle of radius `62.5`. -/
theorem c4_witness :
    ∃ L, nostrLayout [rootAB] 800 250 = some L ∧
      (∃ v, L.nodes.head? = some v ∧ v.x = 400 ∧ v.y = 125) ∧
      (∃ v, (L.nodes.filter (fun n => n.level == 1))[0]? = some v ∧
        v.x = (462.5 : ℝ) ∧ v.y = 125) ∧
      (∃ v, (L.nodes.filter (fun n => n.level == 1))[1]? = some v ∧
        v.x = (337.5 : ℝ) ∧ v.y = 125) := by
  rcases Option.isSome_iff_exists.1 (nostrLayout_single_isSome rootAB 800 250)
    with ⟨L, hL⟩
  have h := c4_radial_positions rootAB 800 250 L hL
  rcases h.2.2.2 0 (NPost.mk "B" "" []) rfl with ⟨v0, hv0, _, hx0, hy0⟩
  rcases h.2.2.2 1 (NPost.mk "C" "" []) rfl with ⟨v1, hv1, _, hx1, hy1⟩
  have hmin : min (800 : ℝ) 250 = 250 := by norm_num
  have hlen : ((rootAB.comments.length : ℕ) : ℝ) = 2 := by
    norm_num [rootAB, NPost.comments]
  refine ⟨L, hL, ⟨rootVNode rootAB 800 250, h.1, ?_, ?_⟩,
    ⟨v0, hv0, ?_, ?_⟩, ⟨v1, hv1, ?_, ?_⟩⟩
  · rw [h.2.1]; norm_num
  · rw [h.2.2.1]; norm_num
  · rw [hx0, hmin, hlen]
    norm_num [Real.cos_zero]
  · rw [hy0, hmin, hlen]
    norm_num [Real.sin_zero]
  · rw [hx1, hmin, hlen]
    have hangle : ((1 : ℕ) : ℝ) / 2 * 2 * Real.pi = Real.pi := by
      push_cast; ring
    rw [hangle, Real.cos_pi]
    norm_num
  · rw [hy1, hmin, hlen]
    have hangle : ((1 : ℕ) : ℝ) / 2 * 2 * Real.pi = Real.pi := by
      push_cast; ring
    rw [hangle, Real.sin_pi]
    norm_num

/-- C5: the layout computation is deterministic — two runs on equal
inputs (same tree, same child order, same viewport) publish equal node
and link sets; the embedding takes exactly those inputs, so no other
state can influence the result. -/
theorem c5_layout_deterministic (posts₁ posts₂ : List NPost)
    (w₁ w₂ h₁ h₂ : ℝ) (hp : posts₁ = posts₂) (hw : w₁ = w₂) (hh : h₁ = h₂) :
    nostrLayout posts₁ w₁ h₁ = nostrLayout posts₂ w₂ h₂ := by
  rw [hp, hw, hh]

/-- C5 (witness). -/
theorem c5_witness :
    nostrLayout [rootAB] 800 250 = nostrLayout [rootAB] 800 250 :=
  c5_layout_deterministic [rootAB] [rootAB] 800 800 250 250 rfl rfl rfl

/-- C6: on every forest built by the hierarchy builder, a present id
yields a non-empty path ending at the target and starting at the id of
one of the forest's roots, and an absent id yields `null`, not an
error. -/
theorem c6_find_path (posts : List Post) (hid : Option String) (t : String) :
    (forestContains (buildHierarchy posts hid) t = true →
      ∃ p, findPathToNode (buildHierarchy posts hid) t [] = some p ∧
        p ≠ [] ∧ p.getLast? = some t ∧
        ∃ r, p.head? = some r ∧ r ∈ (buildHierarchy posts hid).map NPost.id) ∧
    (forestContains (buildHierarchy posts hid) t = false →
      findPathToNode (buildHierarchy posts hid) t [] = none) := by
  constructor
  · intro hc
    have hsome : (findPathToNode (buildHierarchy posts hid) t []).isSome = true := by
      rw [findPathToNode_isSome]; exact hc
    rcases Option.isSome_iff_exists.1 hsome with ⟨p, hp⟩
    rcases findPathToNode_some _ _ _ _ hp with ⟨r, q, hshape, hmem, hlast⟩
    rw [List.nil_append] at hshape
    exact ⟨p, hp, by rw [hshape]; exact List.cons_ne_nil r q, hlast,
      r, by rw [hshape]; rfl, hmem⟩
  · intro hc
    have : ¬(findPathToNode (buildHierarchy posts hid) t []).isSome = true := by
      rw [findPathToNode_isSome, hc]; exact Bool.false_ne_true
    exact Option.not_isSome_iff_eq_none.1 this

/-- C6 (witness). -/
theorem c6_witness :
    (∃ p, findPathToNode (buildHierarchy [postA, postB, postC] none) "C" []
        = some p ∧ p ≠ [] ∧ p.getLast? = some "C" ∧
      ∃ r, p.head? = some r ∧
        r ∈ (buildHierarchy [postA, postB, postC] none).map NPost.id) ∧
    findPathToNode (buildHierarchy [postA, postB, postC] none) "Z" [] = none := by
  refine ⟨(c6_find_path [postA, postB, postC] none "C").1 ?_,
    (c6_find_path [postA, postB, postC] none "Z").2 ?_⟩
  · simp [forestContains, buildHierarchy, rootEntries, childPosts, buildTree,
      parentKey, mapContent, mapEntry, postA, postB, postC, NPost.id, NPost.comments]
  · simp [forestContains, buildHierarchy, rootEntries, childPosts, buildTree,
      parentKey, mapContent, mapEntry, postA, postB, postC, NPost.id, NPost.comments]

/-- C7 (counterexample): `highlightedId` is checked for truthiness, so
the empty-string promote id is never promoted even when it occurs among
the roots at index 1 — the root order stays `["A", ""]` instead of the
claimed `["", "A"]`. -/
theorem c7_counterexample :
    (buildHierarchy [postA, postEmptyId] none).map NPost.id = ["A", ""] ∧
    (buildHierarchy [postA, postEmptyId] (some "")).map NPost.id = ["A", ""] :=
  ⟨rfl, rfl⟩

/-- C7 (amended): for a non-empty promote id, promotion permutes the
roots (never adds or removes one); a promote id found at index `i > 0`
is removed and reinserted at index 0 with `eraseIdx` keeping the
relative order of all other roots; a promote id that is already first or
absent leaves the root order unchanged. An empty promote id is treated
as not supplied. -/
theorem c7_promotion (posts : List Post) (h : String) (hne : h ≠ "") :
    ((buildHierarchy posts (some h)).map NPost.id).Perm
        ((buildHierarchy posts none).map NPost.id) ∧
    (∀ i, ((buildHierarchy posts none).map NPost.id).findIdx? (fun r => r == h)
          = some i → 0 < i →
      (buildHierarchy posts (some h)).map NPost.id
        = h :: ((buildHierarchy posts none).map NPost.id).eraseIdx i) ∧
    (((buildHierarchy posts none).map NPost.id).head? = some h ∨
        h ∉ (buildHierarchy posts none).map NPost.id →
      (buildHierarchy posts (some h)).map NPost.id
        = (buildHierarchy posts none).map NPost.id) := by
  have hR : (buildHierarchy posts none).map NPost.id = rootEntries posts :=
    buildHierarchy_map_id posts none
  have hR' : (buildHierarchy posts (some h)).map NPost.id
      = promoteFirst (rootEntries posts) (fun r => r == h) := by
    rw [buildHierarchy_map_id posts (some h)]
    simp [hne]
  rw [hR, hR']
  refine ⟨promoteFirst_perm _ _, ?_, ?_⟩
  · intro i hfind hpos
    rcases findIdx?_some_pred hfind with ⟨hi, hpred⟩
    rw [promoteFirst_found hfind hpos hi]
    rw [show (rootEntries posts)[i] = h from beq_iff_eq.1 hpred]
  · rintro (hfirst | habsent)
    · rcases hfound : rootEntries posts with _ | ⟨r, rest⟩
      · rfl
      · rw [hfound] at hfirst
        have hr : r = h := by simpa using hfirst
        apply promoteFirst_first
        rw [List.findIdx?_cons]
        simp [hr]
    · apply promoteFirst_absent
      rw [List.findIdx?_eq_none_iff]
      intro x hx
      exact beq_eq_false_iff_ne.2 (fun hxh => habsent (hxh ▸ hx))

/-- C7 (witness). -/
theorem c7_witness :
    (buildHierarchy [postA, postE] (some "E")).map NPost.id = ["E", "A"] ∧
    (buildHierarchy [postA, postE] (some "A")).map NPost.id = ["A", "E"] ∧
    ((buildHierarchy [postA, postE] (some "Q")).map NPost.id).Perm
      ((buildHierarchy [postA, postE] none).map NPost.id) := by
  have h1 := c7_promotion [postA, postE] "E" (by decide)
  have h2 := c7_promotion [postA, postE] "A" (by decide)
  have h3 := c7_promotion [postA, postE] "Q" (by decide)
  refine ⟨?_, ?_, h3.1⟩
  · exact (h1.2.1 1 (by decide) (by decide)).trans (by decide)
  · exact (h2.2.2 (Or.inl (by decide))).trans (by decide)

/-- C8 (counterexample): the zoom-in button multiplies the scale by 1.2
without clamping, so nine presses from the identity transform push the
scale above the claimed maximum of 5. -/
theorem c8_counterexample :
    5 < (runEvents [VizEvent.zoomInBtn, VizEvent.zoomInBtn, VizEvent.zoomInBtn,
      VizEvent.zoomInBtn, VizEvent.zoomInBtn, VizEvent.zoomInBtn,
      VizEvent.zoomInBtn, VizEvent.zoomInBtn, VizEvent.zoomInBtn]).scale := by
  norm_num [runEvents, stepTransform, initTransform]

/-- C8 (amended): the wheel handler clamps, so starting from the
identity transform the scale stays within `[0.1, 5]` under any sequence
of wheel, pan and reset events; the unclamped zoom buttons are excluded
(the counterexample shows they can leave the range). -/
theorem c8_scale_invariant (es : List VizEvent)
    (hbtn : ∀ e ∈ es, e ≠ VizEvent.zoomInBtn ∧ e ≠ VizEvent.zoomOutBtn) :
    1 / 10 ≤ (runEvents es).scale ∧ (runEvents es).scale ≤ 5 :=
  scale_bounds_foldl es initTransform hbtn
    (by norm_num [initTransform]) (by norm_num [initTransform])

/-- C8 (witness). -/
theorem c8_witness :
    1 / 10 ≤ (runEvents [VizEvent.wheel (-1), VizEvent.panTo 3 4,
      VizEvent.reset, VizEvent.wheel 1]).scale ∧
    (runEvents [VizEvent.wheel (-1), VizEvent.panTo 3 4,
      VizEvent.reset, VizEvent.wheel 1]).scale ≤ 5 :=
  c8_scale_invariant
    [VizEvent.wheel (-1), VizEvent.panTo 3 4, VizEvent.reset, VizEvent.wheel 1]
    (by decide)

/-- C9 (counterexample): the layout does not clamp a degenerate
viewport: at width and height 0 the depth-1 ring radius is 0, not a
positive minimum, and the single depth-1 child collapses onto the root's
center `(0, 0)`. -/
theorem c9_counterexample :
    level1Radius 0 0 = 0 ∧
    ∃ L, nostrLayout [rootA1] 0 0 = some L ∧
      ∃ v, (L.nodes.filter (fun n => n.level == 1))[0]? = some v ∧
        v.x = 0 ∧ v.y = 0 ∧
        (rootVNode rootA1 0 0).x = 0 ∧ (rootVNode rootA1 0 0).y = 0 := by
  refine ⟨by norm_num [level1Radius], ?_⟩
  rcases Option.isSome_iff_exists.1 (nostrLayout_single_isSome rootA1 0 0)
    with ⟨L, hL⟩
  refine ⟨L, hL, l1NodeOf 0 0 rootA1.comments.length (0, NPost.mk "B" "" []),
    ?_, ?_, ?_, ?_, ?_⟩
  · rw [nostrLayout_filter_level1 hL, List.getElem?_map, List.getElem?_enum]
    rfl
  · show (0 : ℝ) / 2 + level1Radius 0 0 * Real.cos (l1Angle 0 rootA1.comments.length) = 0
    norm_num [level1Radius]
  · show (0 : ℝ) / 2 + level1Radius 0 0 * Real.sin (l1Angle 0 rootA1.comments.length) = 0
    norm_num [level1Radius]
  · norm_num [rootVNode]
  · norm_num [rootVNode]

/-- C9 (amended): the layout performs no clamping: for a viewport with
non-positive width or height it still returns a well-defined result for
a single-root tree (it is total, no division by a viewport dimension
occurs), but the depth-1 ring radius `min(w,h)·0.25` is non-positive
rather than a clamped usable size. -/
theorem c9_degenerate_viewport (w h : ℝ) (hw : w ≤ 0 ∨ h ≤ 0) (p : NPost) :
    level1Radius w h ≤ 0 ∧ (nostrLayout [p] w h).isSome := by
  refine ⟨?_, nostrLayout_single_isSome p w h⟩
  have hmin : min w h ≤ 0 := by
    rcases hw with hw | hh
    · exact le_trans (min_le_left _ _) hw
    · exact le_trans (min_le_right _ _) hh
  rw [level1Radius]
  nlinarith [hmin]

/-- C9 (witness). -/
theorem c9_witness :
    level1Radius 0 (-3) ≤ 0 ∧ (nostrLayout [rootA1] 0 (-3)).isSome :=
  c9_degenerate_viewport 0 (-3) (Or.inl (by norm_num)) rootA1

/-- Fixture: heap records for the frame witness. -/
def heapObjA : PObj := { id := "A", content := "hello", parent_id := none, comments := [] }

/-- Fixture: a reply heap record. -/
def heapObjB : PObj := { id := "B", content := "re", parent_id := some "A", comments := [] }

/-- C10: `buildHierarchy` never mutates its input: in the explicit-heap
model, every record an input address points at is unchanged after the
call (its `parent_id` and `comments` fields included, hence also the
input list itself), and every returned forest root is a fresh pass-1
copy allocated past the original heap. -/
theorem c10_no_input_mutation (heap0 : List PObj) (input : List Nat)
    (hid : Option String) :
    (∀ a, a < heap0.length →
      (buildHierarchyHeap heap0 input hid).1[a]? = heap0[a]?) ∧
    (∀ r ∈ (buildHierarchyHeap heap0 input hid).2, heap0.length ≤ r) :=
  buildHierarchyHeap_frame heap0 input hid

/-- C10 (witness). -/
theorem c10_witness :
    (buildHierarchyHeap [heapObjA, heapObjB] [0, 1] none).1[0]? = some heapObjA ∧
    (buildHierarchyHeap [heapObjA, heapObjB] [0, 1] none).1[1]? = some heapObjB ∧
    ∀ r ∈ (buildHierarchyHeap [heapObjA, heapObjB] [0, 1] none).2, 2 ≤ r := by
  have hc := c10_no_input_mutation [heapObjA, heapObjB] [0, 1] none
  exact ⟨(hc.1 0 (by norm_num)).trans rfl, (hc.1 1 (by norm_num)).trans rfl,
    fun r hr => hc.2 r hr⟩

end EchoField

